import Mathlib

/-!
Verification of the package build-reconciliation core
(`app/jobs/buildPackage.js`): tag filtering/dedup, release-record
reconciliation, and build-job scheduling, shallowly embedded in Lean.

Strings are manipulated through their character lists so that every
definition evaluates inside the kernel on concrete inputs.
-/

/-- A raw remote tag: the literal ref name and the commit it resolves to. -/
structure RemoteTag where
  tag : String
  commit : String
deriving DecidableEq, Repr

/-- `xs` starts with `ys`, character by character. -/
def listStartsWith : List Char → List Char → Bool
  | _, [] => true
  | [], _ :: _ => false
  | a :: as, b :: bs => a == b && listStartsWith as bs

/-- `xs` ends with `ys`. -/
def listEndsWith (xs ys : List Char) : Bool :=
  listStartsWith xs.reverse ys.reverse

/-- ASCII lower-casing of one character (the tags compared here are ASCII). -/
def lowerChar (c : Char) : Char :=
  if c.isUpper then Char.ofNat (c.toNat + 32) else c

/-- `s.startsWith p` on raw tag strings. -/
def strStartsWith (s p : String) : Bool :=
  listStartsWith s.data p.data

/-- The test of `/(^upm\/|(_|-)upm$)/i` from the source: the raw tag starts
with `upm/` or ends with `_upm` or `-upm`, case-insensitively. -/
def isUpmTag (tag : String) : Bool :=
  let t := tag.data.map lowerChar
  listStartsWith t "upm/".data || listEndsWith t "_upm".data ||
    listEndsWith t "-upm".data

/-- Split a character list at every occurrence of `c` (like `String.split`
on a one-character separator). -/
def splitOnChar (c : Char) : List Char → List (List Char)
  | [] => [[]]
  | a :: rest =>
    if a == c then [] :: splitOnChar c rest
    else
      match splitOnChar c rest with
      | [] => [[a]]
      | h :: t => (a :: h) :: t

/-- Non-empty and all decimal digits. -/
def isDigitsL (cs : List Char) : Bool :=
  !cs.isEmpty && cs.all (fun c => c.isDigit)

/-- Modelled from the spec: the external version-extraction collaborator
`parse(rawTag) → version | null` (`getVersionFromTag`, not part of this
core), pinned down by the spec's concrete scenarios: a plain version such
as `1.0.2` or `0.8.0-preview` parses to itself, a leading path segment is
stripped (`releases/0.8.1-preview` → `0.8.1-preview`), a leading `v` is
stripped (`v1.0.2` → `1.0.2`, the same version as `1.0.2`), and a
non-version word such as `patch` yields null. -/
def mparse (tag : String) : Option String :=
  let cs := (splitOnChar '/' tag.data).getLastD tag.data
  let s := match cs with
    | 'v' :: rest => rest
    | other => other
  let core := (splitOnChar '-' s).headD s
  let parts := splitOnChar '.' core
  if parts.length == 3 && parts.all isDigitsL then some (String.mk s)
  else none

/-- The prefix / semver / ignore passes of `filterRemoteTags` (source lines
50–59): the tags that survive all three filters, in input order.
`gitTagIgnore` is the compiled case-insensitive ignore regular expression,
abstracted as a predicate on the raw tag (`none` when the package sets no
pattern — the source skips the pass on a falsy pattern). -/
def survivingTags (parse : String → Option String)
    (remoteTags : List RemoteTag) (gitTagIgnore : Option (String → Bool))
    (gitTagPrefix : Option String) : List RemoteTag :=
  let tags := remoteTags
  let tags := match gitTagPrefix with
    | some p =>
      if p.data.isEmpty then tags
      else tags.filter (fun x => strStartsWith x.tag p)
    | none => tags
  let tags := tags.filter (fun x => (parse x.tag).isSome)
  match gitTagIgnore with
  | some ignoreRe => tags.filter (fun x => !ignoreRe x.tag)
  | none => tags

/-- The dedup loop of `filterRemoteTags` (source lines 65–71): walk the
tags; a tag whose parsed version is already in the version set is dropped,
otherwise its version is added to the set and the tag appended to the
valid list. -/
def dedupLoop (parse : String → Option String) :
    List RemoteTag → List (Option String) → List RemoteTag → List RemoteTag
  | [], _, validTags => validTags
  | element :: rest, versionSet, validTags =>
    let version := parse element.tag
    if version ∈ versionSet then dedupLoop parse rest versionSet validTags
    else dedupLoop parse rest (versionSet ++ [version]) (validTags ++ [element])

/-- `filterRemoteTags` (source lines 49–73): prefix / semver / ignore
filters, then the UPM-tagged tags seed the valid list and its version set,
then the dedup walk over all surviving tags. No reverse happens here. -/
def filterRemoteTags (parse : String → Option String)
    (remoteTags : List RemoteTag) (gitTagIgnore : Option (String → Bool))
    (gitTagPrefix : Option String) : List RemoteTag :=
  let tags := survivingTags parse remoteTags gitTagIgnore gitTagPrefix
  let validTags := tags.filter (fun x => isUpmTag x.tag)
  let versionSet := validTags.map (fun x => parse x.tag)
  dedupLoop parse tags versionSet validTags

/-- A loaded package manifest: the fields `buildPackage` consumes. -/
structure Package where
  name : String
  gitTagIgnore : Option (String → Bool)
  gitTagPrefix : Option String

/-- The canonical valid-tag list `buildPackage` works with (source lines
28–33): the result of `filterRemoteTags`, reversed by the caller. -/
def buildPackageValidTags (parse : String → Option String)
    (pkg : Package) (remoteTags : List RemoteTag) : List RemoteTag :=
  (filterRemoteTags parse remoteTags pkg.gitTagIgnore pkg.gitTagPrefix).reverse

/-- `lodash.difference(xs, ys)`: the elements of `xs` not present in `ys`
(tag records compared structurally), in `xs` order. -/
def difference (xs ys : List RemoteTag) : List RemoteTag :=
  xs.filter (fun x => !ys.contains x)

/-- Follows the spec's words (§4.1 steps 1–5): the valid-tag list exactly as
the spec describes its accumulation, in construction order — seed with the
UPM-tagged survivors in filtered order and their version set, then walk the
remaining (non-UPM) tags, keeping each first-seen version. Step 6 (the
reverse) is deliberately not applied here. -/
def specAccumulatedValidTags (parse : String → Option String)
    (remoteTags : List RemoteTag) (gitTagIgnore : Option (String → Bool))
    (gitTagPrefix : Option String) : List RemoteTag :=
  let tags := survivingTags parse remoteTags gitTagIgnore gitTagPrefix
  let upmTags := tags.filter (fun x => isUpmTag x.tag)
  let seen := upmTags.map (fun x => parse x.tag)
  dedupLoop parse (tags.filter (fun x => !isUpmTag x.tag)) seen upmTags

/-- Release states (modelled from the spec: the `ReleaseState` enumeration
of `models/common`, not part of this core: Pending / Succeeded / Failed). -/
inductive ReleaseState where
  | Pending
  | Succeeded
  | Failed
deriving DecidableEq, Repr

/-- A persisted release record, keyed by `(packageName, version)`. The
version is the parser's output, so it may be null. -/
structure Release where
  packageName : String
  version : Option String
  commit : String
  tag : String
  state : ReleaseState
  reason : Option String
deriving DecidableEq, Repr

/-- The release store: the list of persisted release records. -/
structure Store where
  releases : List Release
deriving DecidableEq, Repr

/-- The delay handed to the queue: `0` (immediate) or an absolute future
timestamp, in seconds. -/
inductive Delay where
  | immediate
  | timestamp (t : Nat)
deriving DecidableEq, Repr

/-- One observable call to an external collaborator, in invocation order. -/
inductive Effect where
  | setInvalidTags (packageName : String) (tags : List RemoteTag)
  | fetchAllReleases (packageName : String)
  | removeRelease (packageName : String) (version : Option String)
  | fetchOneRelease (packageName : String) (version : Option String)
  | saveRelease (record : Release)
  | getJob (jobId : String)
  | addJob (jobId : String) (delay : Delay)
deriving DecidableEq, Repr

/-- `Release.fetchAll(packageName)`: every stored release of the package,
in store order. -/
def fetchAll (s : Store) (packageName : String) : List Release :=
  s.releases.filter (fun r => r.packageName == packageName)

/-- `Release.fetchOne(packageName, version)`: the stored release with that
key, if any. -/
def fetchOne (s : Store) (packageName : String) (version : Option String) :
    Option Release :=
  (s.releases.filter
    (fun r => r.packageName == packageName && r.version == version)).head?

/-- `Release.save(record)`: append the record to the store. -/
def saveRelease (record : Release) (s : Store) : Store :=
  ⟨s.releases ++ [record]⟩

/-- Modelled from the spec: the external removal routine
(`removeRelease(packageName, version)`, not part of this core) deletes the
release record for that key; its other artifact cleanup is opaque here. -/
def removeReleaseModel (packageName : String) (version : Option String)
    (s : Store) : Store :=
  ⟨s.releases.filter
    (fun r => !(r.packageName == packageName && r.version == version))⟩

/-- The stale-failure eviction loop of `updateReleaseRecords` (source lines
79–94): walk the releases fetched up front; a Failed release whose
`(tag, commit)` matches no remote tag is removed. Returns the updated store
and the removal effects, in order. -/
def staleEvictLoop (packageName : String) (remoteTags : List RemoteTag) :
    List Release → Store → Store × List Effect
  | [], s => (s, [])
  | rel :: rest, s =>
    if rel.state == ReleaseState.Failed &&
        !(remoteTags.any (fun x => x.tag == rel.tag && x.commit == rel.commit)) then
      let s1 := removeReleaseModel packageName rel.version s
      let p := staleEvictLoop packageName remoteTags rest s1
      (p.1, Effect.removeRelease packageName rel.version :: p.2)
    else staleEvictLoop packageName remoteTags rest s

/-- The materialization loop of `updateReleaseRecords` (source lines
96–110): for each remote tag look up the release for its parsed version;
reuse it when present, otherwise save `{packageName, version, commit, tag}`
with the default Pending state and unset reason. Returns the updated store,
the effects, and the releases list in tag order. -/
def materializeLoop (parse : String → Option String) (packageName : String) :
    List RemoteTag → Store → Store × List Effect × List Release
  | [], s => (s, [], [])
  | remoteTag :: rest, s =>
    let version := parse remoteTag.tag
    match fetchOne s packageName version with
    | some release =>
      let p := materializeLoop parse packageName rest s
      (p.1, Effect.fetchOneRelease packageName version :: p.2.1,
        release :: p.2.2)
    | none =>
      let record : Release :=
        { packageName := packageName, version := version,
          commit := remoteTag.commit, tag := remoteTag.tag,
          state := ReleaseState.Pending, reason := none }
      let p := materializeLoop parse packageName rest (saveRelease record s)
      (p.1, Effect.fetchOneRelease packageName version ::
        Effect.saveRelease record :: p.2.1, record :: p.2.2)

/-- `updateReleaseRecords(packageName, remoteTags)` (source lines 76–112):
fetch the package's releases, evict stale failures, then materialize a
release per remote tag. -/
def updateReleaseRecords (parse : String → Option String)
    (packageName : String) (remoteTags : List RemoteTag) (s : Store) :
    Store × List Effect × List Release :=
  let fetched := fetchAll s packageName
  let p1 := staleEvictLoop packageName remoteTags fetched s
  let p2 := materializeLoop parse packageName remoteTags p1.1
  (p2.1, Effect.fetchAllReleases packageName :: p1.2 ++ p2.2.1, p2.2.2)

/-- The build-release job queue, as the set of job ids it holds. -/
structure Queue where
  jobIds : List String
deriving DecidableEq, Repr

/-- `config.jobs.buildRelease`: the job-key prefix and the per-job stagger
delay in seconds. -/
structure JobConfig where
  key : String
  delay : Nat
deriving DecidableEq, Repr

/-- JavaScript string interpolation of the release version into the job id
(a null version prints as `null`). -/
def versionString : Option String → String
  | some v => v
  | none => "null"

/-- The deterministic job id (source lines 120–121):
`key + ":" + packageName + ":" + version`. -/
def jobIdOf (key : String) (rel : Release) : String :=
  key ++ ":" ++ rel.packageName ++ ":" ++ versionString rel.version

/-- One iteration of the `addReleaseJobs` loop body (source lines 118–152)
for one release, given the queue and the stagger counter `i`. `retryable`
is `RetryableReleaseReason.includes(ReleaseReason.get(·))` abstracted as a
predicate on the stored reason code. Returns the queue, the counter and
the effects of the iteration. -/
def releaseJobStep (retryable : Option String → Bool) (cfg : JobConfig)
    (now : Nat) (rel : Release) (q : Queue) (i : Nat) :
    Queue × Nat × List Effect :=
  let jobId := jobIdOf cfg.key rel
  if jobId ∈ q.jobIds || rel.state == ReleaseState.Succeeded ||
      (rel.state == ReleaseState.Failed && !retryable rel.reason) then
    (q, i, [Effect.getJob jobId])
  else
    let delay := if i == 0 then Delay.immediate
      else Delay.timestamp (now + cfg.delay * i)
    (⟨q.jobIds ++ [jobId]⟩, i + 1,
      [Effect.getJob jobId, Effect.addJob jobId delay])

/-- The `addReleaseJobs` loop over the releases (source lines 117–152). -/
def addReleaseJobsLoop (retryable : Option String → Bool) (cfg : JobConfig)
    (now : Nat) : List Release → Queue → Nat → Queue × List Effect
  | [], q, _ => (q, [])
  | rel :: rest, q, i =>
    let step := releaseJobStep retryable cfg now rel q i
    let p := addReleaseJobsLoop retryable cfg now rest step.1 step.2.1
    (p.1, step.2.2 ++ p.2)

/-- `addReleaseJobs(releases)` (source lines 115–153): the loop started
with stagger counter 0. -/
def addReleaseJobs (retryable : Option String → Bool) (cfg : JobConfig)
    (now : Nat) (releases : List Release) (q : Queue) : Queue × List Effect :=
  addReleaseJobsLoop retryable cfg now releases q 0

/-- `buildPackage(name)` after the external loads (source lines 28–46):
filter and reverse the remote tags, persist the invalid tags, stop when no
valid tag remains, otherwise reconcile the release records and schedule
the build jobs. -/
def buildPackage (parse : String → Option String)
    (retryable : Option String → Bool) (cfg : JobConfig) (now : Nat)
    (name : String) (pkg : Package) (remoteTags : List RemoteTag)
    (s : Store) (q : Queue) : Store × Queue × List Effect :=
  let validTags := buildPackageValidTags parse pkg remoteTags
  let invalidTags := difference remoteTags validTags
  if validTags.isEmpty then
    (s, q, [Effect.setInvalidTags name invalidTags])
  else
    let p1 := updateReleaseRecords parse pkg.name validTags s
    let p2 := addReleaseJobs retryable cfg now p1.2.2 q
    (p1.1, p2.1, Effect.setInvalidTags name invalidTags :: p1.2.1 ++ p2.2)

/-- The job ids of the `addJob` effects of a trace, in order. -/
def addJobIds : List Effect → List String
  | [] => []
  | Effect.addJob jobId _ :: rest => jobId :: addJobIds rest
  | _ :: rest => addJobIds rest

/-- The delays of the `addJob` effects of a trace, in order. -/
def addJobDelays : List Effect → List Delay
  | [] => []
  | Effect.addJob _ d :: rest => d :: addJobDelays rest
  | _ :: rest => addJobDelays rest

/-! ## Helper lemmas about the dedup walk -/

/-- The dedup walk only appends to the valid list it is given. -/
theorem dedupLoop_append (parse : String → Option String)
    (l : List RemoteTag) (seen : List (Option String)) (valid : List RemoteTag) :
    ∃ rest, dedupLoop parse l seen valid = valid ++ rest := by
  induction l generalizing seen valid with
  | nil => exact ⟨[], by simp [dedupLoop]⟩
  | cons a l ih =>
    simp only [dedupLoop]
    split
    · exact ih seen valid
    · obtain ⟨rest, h⟩ := ih (seen ++ [parse a.tag]) (valid ++ [a])
      exact ⟨a :: rest, by simp [h]⟩

/-- Characterization of the tags the dedup walk appends: their versions are
pairwise distinct and outside the seed set, each appended tag is the first
element of the walked list bearing its version, and conversely any first
bearer of an unseen version is appended. -/
theorem dedupLoop_spec (parse : String → Option String)
    (l : List RemoteTag) (seen : List (Option String)) (valid : List RemoteTag) :
    ∃ rest, dedupLoop parse l seen valid = valid ++ rest ∧
      (rest.map (fun x => parse x.tag)).Nodup ∧
      (∀ t ∈ rest, parse t.tag ∉ seen ∧
        ∃ l1 l2, l = l1 ++ t :: l2 ∧ ∀ u ∈ l1, parse u.tag ≠ parse t.tag) ∧
      (∀ l1 t l2, l = l1 ++ t :: l2 → parse t.tag ∉ seen →
        (∀ u ∈ l1, parse u.tag ≠ parse t.tag) → t ∈ rest) := by
  induction l generalizing seen valid with
  | nil =>
    refine ⟨[], by simp [dedupLoop], by simp, by simp, ?_⟩
    intro l1 t l2 h
    exact absurd h (by simp)
  | cons a l ih =>
    simp only [dedupLoop]
    by_cases hmem : parse a.tag ∈ seen
    · rw [if_pos hmem]
      obtain ⟨rest, heq, hnodup, hprops, hcomplete⟩ := ih seen valid
      refine ⟨rest, heq, hnodup, ?_, ?_⟩
      · intro t ht
        obtain ⟨hns, l1, l2, hsplit, hdiff⟩ := hprops t ht
        refine ⟨hns, a :: l1, l2, by simp [hsplit], ?_⟩
        intro u hu
        rcases List.mem_cons.mp hu with h | h
        · subst h
          intro hcontra
          rw [hcontra] at hmem
          exact hns hmem
        · exact hdiff u h
      · intro l1 t l2 hsplit hns hdiff
        cases l1 with
        | nil =>
          simp only [List.nil_append, List.cons.injEq] at hsplit
          rw [← hsplit.1] at hns
          exact absurd hmem hns
        | cons b l1' =>
          simp only [List.cons_append, List.cons.injEq] at hsplit
          exact hcomplete l1' t l2 hsplit.2 hns
            (fun u hu => hdiff u (List.mem_cons_of_mem b hu))
    · rw [if_neg hmem]
      obtain ⟨rest, heq, hnodup, hprops, hcomplete⟩ :=
        ih (seen ++ [parse a.tag]) (valid ++ [a])
      have hne : ∀ t ∈ rest, parse t.tag ∉ seen ∧ parse t.tag ≠ parse a.tag := by
        intro t ht
        have hns := (hprops t ht).1
        constructor
        · intro h; exact hns (by simp [h])
        · intro h; exact hns (by simp [h])
      refine ⟨a :: rest, by simp [heq], ?_, ?_, ?_⟩
      · refine List.nodup_cons.mpr ⟨?_, hnodup⟩
        intro hcontra
        obtain ⟨t, ht, hteq⟩ := List.mem_map.mp hcontra
        exact (hne t ht).2 hteq
      · intro t ht
        rcases List.mem_cons.mp ht with h | h
        · subst h
          exact ⟨hmem, [], l, rfl, by simp⟩
        · obtain ⟨_, l1, l2, hsplit, hdiff⟩ := hprops t h
          refine ⟨(hne t h).1, a :: l1, l2, by simp [hsplit], ?_⟩
          intro u hu
          rcases List.mem_cons.mp hu with h' | h'
          · subst h'
            exact fun hc => (hne t h).2 hc.symm
          · exact hdiff u h'
      · intro l1 t l2 hsplit hns hdiff
        cases l1 with
        | nil =>
          simp only [List.nil_append, List.cons.injEq] at hsplit
          rw [hsplit.1]
          exact List.mem_cons_self t rest
        | cons b l1' =>
          simp only [List.cons_append, List.cons.injEq] at hsplit
          have hbna : b = a := hsplit.1.symm
          refine List.mem_cons_of_mem a (hcomplete l1' t l2 hsplit.2 ?_ ?_)
          · intro hc
            rcases List.mem_append.mp hc with h | h
            · exact hns h
            · have : parse t.tag = parse a.tag := by
                simpa using h
              exact hdiff b (List.mem_cons_self b l1') (by rw [hbna, ← this])
          · intro u hu
            exact hdiff u (List.mem_cons_of_mem b hu)

/-- Walking a list whose UPM-tagged members all bear already-seen versions
is the same as walking its non-UPM members. -/
theorem dedupLoop_skip_upm (parse : String → Option String)
    (l : List RemoteTag) (seen : List (Option String)) (valid : List RemoteTag)
    (h : ∀ t ∈ l, isUpmTag t.tag = true → parse t.tag ∈ seen) :
    dedupLoop parse l seen valid =
      dedupLoop parse (l.filter (fun x => !isUpmTag x.tag)) seen valid := by
  induction l generalizing seen valid with
  | nil => rfl
  | cons a l ih =>
    by_cases hupm : isUpmTag a.tag = true
    · have hseen : parse a.tag ∈ seen := h a (List.mem_cons_self a l) hupm
      have hfa : (!isUpmTag a.tag) = false := by simp [hupm]
      simp only [dedupLoop, if_pos hseen, List.filter_cons, hfa]
      simp only [Bool.false_eq_true, if_false]
      exact ih seen valid (fun t ht hu => h t (List.mem_cons_of_mem a ht) hu)
    · have hfa : (!isUpmTag a.tag) = true := by simp [hupm]
      simp only [dedupLoop, List.filter_cons, hfa, if_true]
      by_cases hseen : parse a.tag ∈ seen
      · simp only [dedupLoop, if_pos hseen]
        exact ih seen valid (fun t ht hu => h t (List.mem_cons_of_mem a ht) hu)
      · simp only [dedupLoop, if_neg hseen]
        refine ih (seen ++ [parse a.tag]) (valid ++ [a]) ?_
        intro t ht hu
        exact List.mem_append_left _ (h t (List.mem_cons_of_mem a ht) hu)

/-! ## C1: ordering contract of the tag-filtering function -/

/-- C1, counterexample: on the input `[1.0.2@c10, 1.0.0@c8]` the
tag-filtering function does not return the reverse of the list accumulated
by the filter/partition/dedup passes — it returns that list itself, in
construction order; no reverse happens inside the function. -/
theorem filterRemoteTags_not_reversed_cex :
    filterRemoteTags mparse [⟨"1.0.2", "c10"⟩, ⟨"1.0.0", "c8"⟩] none none ≠
      (specAccumulatedValidTags mparse [⟨"1.0.2", "c10"⟩, ⟨"1.0.0", "c8"⟩]
        none none).reverse := by
  decide

/-- C1 (amended): the tag-filtering function returns the valid-tag list in
construction order, exactly the list accumulated by the
filter/partition/dedup passes; the reverse is applied by the caller
`buildPackage` to the returned list, so the canonical valid-tag list
consumed downstream is the reverse of the accumulated list. -/
theorem filterRemoteTags_construction_order (parse : String → Option String)
    (pkg : Package) (remoteTags : List RemoteTag) :
    filterRemoteTags parse remoteTags pkg.gitTagIgnore pkg.gitTagPrefix =
      specAccumulatedValidTags parse remoteTags pkg.gitTagIgnore
        pkg.gitTagPrefix ∧
    buildPackageValidTags parse pkg remoteTags =
      (specAccumulatedValidTags parse remoteTags pkg.gitTagIgnore
        pkg.gitTagPrefix).reverse := by
  have key : filterRemoteTags parse remoteTags pkg.gitTagIgnore
      pkg.gitTagPrefix =
      specAccumulatedValidTags parse remoteTags pkg.gitTagIgnore
        pkg.gitTagPrefix := by
    refine dedupLoop_skip_upm parse
      (survivingTags parse remoteTags pkg.gitTagIgnore pkg.gitTagPrefix) _ _ ?_
    intro t ht hu
    exact List.mem_map.mpr ⟨t, List.mem_filter.mpr ⟨ht, hu⟩, rfl⟩
  exact ⟨key, by rw [buildPackageValidTags, key]⟩

/-! ## C2: concrete simple-scenario ordering -/

/-- C2, counterexample: on the spec's simple scenario the final
after-reverse valid-tag list is NOT `[1.0.2@c10, 1.0.0@c8,
0.8.0-preview@c6, releases/0.8.1-preview@c5]` — that is the pre-reverse
order; the reversed list the orchestrator uses is its mirror image. -/
theorem simpleScenario_after_reverse_cex :
    buildPackageValidTags mparse ⟨"pkg", none, none⟩
      [⟨"1.0.2", "0000010"⟩, ⟨"patch", "0000009"⟩, ⟨"1.0.0", "0000008"⟩,
        ⟨"0.8.0-preview", "0000006"⟩, ⟨"releases/0.8.1-preview", "0000005"⟩] ≠
      [⟨"1.0.2", "0000010"⟩, ⟨"1.0.0", "0000008"⟩,
        ⟨"0.8.0-preview", "0000006"⟩, ⟨"releases/0.8.1-preview", "0000005"⟩] := by
  decide

/-- C2 (amended): filtering the simple-scenario input with no prefix and no
ignore pattern yields the valid-tag list `[1.0.2@c10, 1.0.0@c8,
0.8.0-preview@c6, releases/0.8.1-preview@c5]` in that order as returned by
the tag-filtering function (before the caller's reverse, as the unit test
asserts); the after-reverse canonical list is its reversal, and
`patch@c9` lands in the invalid-tag list. -/
theorem simpleScenario_valid_and_invalid :
    filterRemoteTags mparse
      [⟨"1.0.2", "0000010"⟩, ⟨"patch", "0000009"⟩, ⟨"1.0.0", "0000008"⟩,
        ⟨"0.8.0-preview", "0000006"⟩, ⟨"releases/0.8.1-preview", "0000005"⟩]
      none none =
      [⟨"1.0.2", "0000010"⟩, ⟨"1.0.0", "0000008"⟩,
        ⟨"0.8.0-preview", "0000006"⟩, ⟨"releases/0.8.1-preview", "0000005"⟩] ∧
    buildPackageValidTags mparse ⟨"pkg", none, none⟩
      [⟨"1.0.2", "0000010"⟩, ⟨"patch", "0000009"⟩, ⟨"1.0.0", "0000008"⟩,
        ⟨"0.8.0-preview", "0000006"⟩, ⟨"releases/0.8.1-preview", "0000005"⟩] =
      [⟨"releases/0.8.1-preview", "0000005"⟩, ⟨"0.8.0-preview", "0000006"⟩,
        ⟨"1.0.0", "0000008"⟩, ⟨"1.0.2", "0000010"⟩] ∧
    (⟨"patch", "0000009"⟩ : RemoteTag) ∈
      difference
        [⟨"1.0.2", "0000010"⟩, ⟨"patch", "0000009"⟩, ⟨"1.0.0", "0000008"⟩,
          ⟨"0.8.0-preview", "0000006"⟩, ⟨"releases/0.8.1-preview", "0000005"⟩]
        (buildPackageValidTags mparse ⟨"pkg", none, none⟩
          [⟨"1.0.2", "0000010"⟩, ⟨"patch", "0000009"⟩, ⟨"1.0.0", "0000008"⟩,
            ⟨"0.8.0-preview", "0000006"⟩,
            ⟨"releases/0.8.1-preview", "0000005"⟩]) := by
  refine ⟨by decide, by decide, by decide⟩

/-! ## C6: version-level dedup of non-UPM tags -/

/-- C6: among the surviving non-UPM tags, at most one tag per parsed
version appears in the valid output — the earliest surviving tag bearing a
version not claimed by any UPM-tagged survivor — and the two concrete
duplication scenarios behave as the unit tests assert. -/
theorem filterRemoteTags_dedup_non_upm (parse : String → Option String)
    (remoteTags : List RemoteTag) (gitTagIgnore : Option (String → Bool))
    (gitTagPrefix : Option String) :
    (∃ rest,
      filterRemoteTags parse remoteTags gitTagIgnore gitTagPrefix =
        (survivingTags parse remoteTags gitTagIgnore gitTagPrefix).filter
          (fun x => isUpmTag x.tag) ++ rest ∧
      (rest.map (fun x => parse x.tag)).Nodup ∧
      (∀ t ∈ rest, isUpmTag t.tag = false ∧
        parse t.tag ∉
          ((survivingTags parse remoteTags gitTagIgnore gitTagPrefix).filter
            (fun x => isUpmTag x.tag)).map (fun x => parse x.tag) ∧
        ∃ l1 l2,
          survivingTags parse remoteTags gitTagIgnore gitTagPrefix =
            l1 ++ t :: l2 ∧
          ∀ u ∈ l1, parse u.tag ≠ parse t.tag) ∧
      (∀ l1 t l2,
        survivingTags parse remoteTags gitTagIgnore gitTagPrefix =
          l1 ++ t :: l2 →
        parse t.tag ∉
          ((survivingTags parse remoteTags gitTagIgnore gitTagPrefix).filter
            (fun x => isUpmTag x.tag)).map (fun x => parse x.tag) →
        (∀ u ∈ l1, parse u.tag ≠ parse t.tag) → t ∈ rest)) ∧
    filterRemoteTags mparse [⟨"1.0.2", "c10"⟩, ⟨"v1.0.2", "c9"⟩] none none =
      [⟨"1.0.2", "c10"⟩] ∧
    filterRemoteTags mparse [⟨"v1.0.2", "c10"⟩, ⟨"1.0.2", "c9"⟩] none none =
      [⟨"v1.0.2", "c10"⟩] := by
  refine ⟨?_, by decide, by decide⟩
  obtain ⟨rest, heq, hnodup, hprops, hcomplete⟩ :=
    dedupLoop_spec parse
      (survivingTags parse remoteTags gitTagIgnore gitTagPrefix)
      (((survivingTags parse remoteTags gitTagIgnore gitTagPrefix).filter
        (fun x => isUpmTag x.tag)).map (fun x => parse x.tag))
      ((survivingTags parse remoteTags gitTagIgnore gitTagPrefix).filter
        (fun x => isUpmTag x.tag))
  refine ⟨rest, heq, hnodup, ?_, hcomplete⟩
  intro t ht
  obtain ⟨hns, l1, l2, hsplit, hdiff⟩ := hprops t ht
  have htS : t ∈ survivingTags parse remoteTags gitTagIgnore gitTagPrefix := by
    rw [hsplit]
    exact List.mem_append_right l1 (List.mem_cons_self t l2)
  have hnu : isUpmTag t.tag = false := by
    rcases Bool.eq_false_or_eq_true (isUpmTag t.tag) with h | h
    · exact absurd
        (List.mem_map.mpr ⟨t, List.mem_filter.mpr ⟨htS, h⟩, rfl⟩) hns
    · exact h
  exact ⟨hnu, hns, l1, l2, hsplit, hdiff⟩

/-! ## C7: UPM-tagged tags are exempt from dedup -/

/-- C7: every UPM-tagged survivor appears in the valid output (the
UPM-tagged survivors are, as a block, a prefix of it, so version-level
dedup removes none of them even when several parse to the identical
version); concretely, `upm/1.0.2` and `upm/v1.0.2` parse to the same
version yet both appear. -/
theorem filterRemoteTags_upm_never_deduped (parse : String → Option String)
    (remoteTags : List RemoteTag) (gitTagIgnore : Option (String → Bool))
    (gitTagPrefix : Option String) :
    (∃ rest,
      filterRemoteTags parse remoteTags gitTagIgnore gitTagPrefix =
        (survivingTags parse remoteTags gitTagIgnore gitTagPrefix).filter
          (fun x => isUpmTag x.tag) ++ rest) ∧
    mparse "upm/1.0.2" = mparse "upm/v1.0.2" ∧
    isUpmTag "upm/1.0.2" = true ∧ isUpmTag "upm/v1.0.2" = true ∧
    filterRemoteTags mparse
      [⟨"upm/1.0.2", "c1"⟩, ⟨"upm/v1.0.2", "c2"⟩] none none =
      [⟨"upm/1.0.2", "c1"⟩, ⟨"upm/v1.0.2", "c2"⟩] := by
  exact ⟨dedupLoop_append parse _ _ _, by decide, by decide, by decide,
    by decide⟩

/-! ## Helper lemmas about the scheduling loop -/

/-- The loop body when the skip condition holds: no enqueue, no counter
move, only the job lookup. -/
theorem releaseJobStep_skip (retryable : Option String → Bool)
    (cfg : JobConfig) (now : Nat) (rel : Release) (q : Queue) (i : Nat)
    (h : (decide (jobIdOf cfg.key rel ∈ q.jobIds) ||
      rel.state == ReleaseState.Succeeded ||
      (rel.state == ReleaseState.Failed && !retryable rel.reason)) = true) :
    releaseJobStep retryable cfg now rel q i =
      (q, i, [Effect.getJob (jobIdOf cfg.key rel)]) := by
  simp only [releaseJobStep, h, if_true]

/-- The loop body when the skip condition fails: the job is enqueued with
the staggered delay and the counter moves. -/
theorem releaseJobStep_add (retryable : Option String → Bool)
    (cfg : JobConfig) (now : Nat) (rel : Release) (q : Queue) (i : Nat)
    (h : (decide (jobIdOf cfg.key rel ∈ q.jobIds) ||
      rel.state == ReleaseState.Succeeded ||
      (rel.state == ReleaseState.Failed && !retryable rel.reason)) = false) :
    releaseJobStep retryable cfg now rel q i =
      (⟨q.jobIds ++ [jobIdOf cfg.key rel]⟩, i + 1,
        [Effect.getJob (jobIdOf cfg.key rel),
          Effect.addJob (jobIdOf cfg.key rel)
            (if i == 0 then Delay.immediate
              else Delay.timestamp (now + cfg.delay * i))]) := by
  simp only [releaseJobStep, h, Bool.false_eq_true, if_false]

/-- The skip condition, read propositionally. -/
theorem skipCond_iff (retryable : Option String → Bool) (cfg : JobConfig)
    (rel : Release) (q : Queue) :
    (decide (jobIdOf cfg.key rel ∈ q.jobIds) ||
      rel.state == ReleaseState.Succeeded ||
      (rel.state == ReleaseState.Failed && !retryable rel.reason)) = true ↔
    (jobIdOf cfg.key rel ∈ q.jobIds ∨ rel.state = ReleaseState.Succeeded ∨
      (rel.state = ReleaseState.Failed ∧ retryable rel.reason = false)) := by
  simp only [Bool.or_eq_true, decide_eq_true_eq, beq_iff_eq, Bool.and_eq_true,
    Bool.not_eq_true', or_assoc]

/-! ## C4: the enqueue decision -/

/-- C4: for a release processed by the scheduling loop, a build job is
enqueued iff none of these holds: a job with its deterministic id already
exists, the release state is Succeeded, or the state is Failed with a
non-retryable reason; and when one holds the release is skipped — no
enqueue, queue untouched, stagger counter not advanced. -/
theorem releaseJobStep_enqueue_iff (retryable : Option String → Bool)
    (cfg : JobConfig) (now : Nat) (rel : Release) (q : Queue) (i : Nat) :
    ((∃ d, Effect.addJob (jobIdOf cfg.key rel) d ∈
        (releaseJobStep retryable cfg now rel q i).2.2) ↔
      ¬(jobIdOf cfg.key rel ∈ q.jobIds ∨
        rel.state = ReleaseState.Succeeded ∨
        (rel.state = ReleaseState.Failed ∧ retryable rel.reason = false))) ∧
    ((jobIdOf cfg.key rel ∈ q.jobIds ∨ rel.state = ReleaseState.Succeeded ∨
        (rel.state = ReleaseState.Failed ∧ retryable rel.reason = false)) →
      releaseJobStep retryable cfg now rel q i =
        (q, i, [Effect.getJob (jobIdOf cfg.key rel)])) := by
  by_cases hc : jobIdOf cfg.key rel ∈ q.jobIds ∨
      rel.state = ReleaseState.Succeeded ∨
      (rel.state = ReleaseState.Failed ∧ retryable rel.reason = false)
  · have hstep := releaseJobStep_skip retryable cfg now rel q i
      ((skipCond_iff retryable cfg rel q).mpr hc)
    rw [hstep]
    refine ⟨⟨?_, fun hn => absurd hc hn⟩, fun _ => rfl⟩
    rintro ⟨d, hd⟩
    simp at hd
  · have hb : (decide (jobIdOf cfg.key rel ∈ q.jobIds) ||
        rel.state == ReleaseState.Succeeded ||
        (rel.state == ReleaseState.Failed && !retryable rel.reason)) = false :=
      Bool.eq_false_iff.mpr
        (fun h => hc ((skipCond_iff retryable cfg rel q).mp h))
    have hstep := releaseJobStep_add retryable cfg now rel q i hb
    rw [hstep]
    refine ⟨⟨fun _ => hc, fun _ => ?_⟩, fun h => absurd h hc⟩
    exact ⟨if i == 0 then Delay.immediate
      else Delay.timestamp (now + cfg.delay * i), by simp⟩

/-- `addJobDelays` distributes over trace concatenation. -/
theorem addJobDelays_append (es1 es2 : List Effect) :
    addJobDelays (es1 ++ es2) = addJobDelays es1 ++ addJobDelays es2 := by
  induction es1 with
  | nil => rfl
  | cons e es ih => cases e <;> simp [addJobDelays, ih]

/-- `addJobIds` distributes over trace concatenation. -/
theorem addJobIds_append (es1 es2 : List Effect) :
    addJobIds (es1 ++ es2) = addJobIds es1 ++ addJobIds es2 := by
  induction es1 with
  | nil => rfl
  | cons e es ih => cases e <;> simp [addJobIds, ih]

/-- Starting the scheduling loop at counter `i`, the emitted delays are the
staggered schedule for positions `i, i+1, …`. -/
theorem addReleaseJobsLoop_delays (retryable : Option String → Bool)
    (cfg : JobConfig) (now : Nat) (rels : List Release) (q : Queue) (i : Nat) :
    addJobDelays (addReleaseJobsLoop retryable cfg now rels q i).2 =
      (List.range' i
        (addJobDelays (addReleaseJobsLoop retryable cfg now rels q i).2).length).map
        (fun k => if k == 0 then Delay.immediate
          else Delay.timestamp (now + cfg.delay * k)) := by
  induction rels generalizing q i with
  | nil => simp [addReleaseJobsLoop, addJobDelays]
  | cons rel rest ih =>
    by_cases hb : (decide (jobIdOf cfg.key rel ∈ q.jobIds) ||
        rel.state == ReleaseState.Succeeded ||
        (rel.state == ReleaseState.Failed && !retryable rel.reason)) = true
    · simp only [addReleaseJobsLoop,
        releaseJobStep_skip retryable cfg now rel q i hb]
      simpa [addJobDelays_append, addJobDelays] using ih q i
    · have hb' := Bool.eq_false_iff.mpr hb
      simp only [addReleaseJobsLoop,
        releaseJobStep_add retryable cfg now rel q i hb']
      simp only [addJobDelays_append, addJobDelays, List.length_cons,
        List.range'_succ, List.map_cons, List.nil_append]
      exact congrArg _ (ih ⟨q.jobIds ++ [jobIdOf cfg.key rel]⟩ (i + 1))

/-! ## C5: stagger schedule of the enqueued jobs -/

/-- C5: over one scheduling run, the delays of the actually-enqueued jobs
are exactly the staggered schedule — the 0th enqueued job is immediate and
the k-th is timestamped `now + k × d` seconds (skipped releases advance no
counter, so the offsets are `0, d, 2d, …`). -/
theorem addReleaseJobs_stagger (retryable : Option String → Bool)
    (cfg : JobConfig) (now : Nat) (rels : List Release) (q : Queue) :
    addJobDelays (addReleaseJobs retryable cfg now rels q).2 =
      (List.range
        (addJobDelays (addReleaseJobs retryable cfg now rels q).2).length).map
        (fun k => if k == 0 then Delay.immediate
          else Delay.timestamp (now + cfg.delay * k)) := by
  have h := addReleaseJobsLoop_delays retryable cfg now rels q 0
  simpa [addReleaseJobs, List.range_eq_range'] using h

/-- The scheduling loop only appends job ids to the queue. -/
theorem addReleaseJobsLoop_queue_grows (retryable : Option String → Bool)
    (cfg : JobConfig) (now : Nat) (rels : List Release) (q : Queue) (i : Nat) :
    ∃ more, (addReleaseJobsLoop retryable cfg now rels q i).1.jobIds =
      q.jobIds ++ more := by
  induction rels generalizing q i with
  | nil => exact ⟨[], by simp [addReleaseJobsLoop]⟩
  | cons rel rest ih =>
    by_cases hb : (decide (jobIdOf cfg.key rel ∈ q.jobIds) ||
        rel.state == ReleaseState.Succeeded ||
        (rel.state == ReleaseState.Failed && !retryable rel.reason)) = true
    · simp only [addReleaseJobsLoop,
        releaseJobStep_skip retryable cfg now rel q i hb]
      exact ih q i
    · have hb' := Bool.eq_false_iff.mpr hb
      simp only [addReleaseJobsLoop,
        releaseJobStep_add retryable cfg now rel q i hb']
      obtain ⟨more, h⟩ := ih ⟨q.jobIds ++ [jobIdOf cfg.key rel]⟩ (i + 1)
      exact ⟨jobIdOf cfg.key rel :: more, by simp [h]⟩

/-- The job ids the scheduling loop enqueues are pairwise distinct and all
absent from the starting queue. -/
theorem addReleaseJobsLoop_ids (retryable : Option String → Bool)
    (cfg : JobConfig) (now : Nat) (rels : List Release) (q : Queue) (i : Nat) :
    (addJobIds (addReleaseJobsLoop retryable cfg now rels q i).2).Nodup ∧
    ∀ j ∈ addJobIds (addReleaseJobsLoop retryable cfg now rels q i).2,
      j ∉ q.jobIds := by
  induction rels generalizing q i with
  | nil => exact ⟨by simp [addReleaseJobsLoop, addJobIds],
      by simp [addReleaseJobsLoop, addJobIds]⟩
  | cons rel rest ih =>
    by_cases hb : (decide (jobIdOf cfg.key rel ∈ q.jobIds) ||
        rel.state == ReleaseState.Succeeded ||
        (rel.state == ReleaseState.Failed && !retryable rel.reason)) = true
    · simp only [addReleaseJobsLoop,
        releaseJobStep_skip retryable cfg now rel q i hb]
      obtain ⟨hnd, hnin⟩ := ih q i
      refine ⟨by simpa [addJobIds_append, addJobIds] using hnd, ?_⟩
      intro j hj
      simp only [addJobIds_append, addJobIds] at hj
      exact hnin j (by simpa using hj)
    · have hb' := Bool.eq_false_iff.mpr hb
      have hjq : jobIdOf cfg.key rel ∉ q.jobIds := by
        intro hmem
        simp [hmem] at hb
      simp only [addReleaseJobsLoop,
        releaseJobStep_add retryable cfg now rel q i hb']
      obtain ⟨hnd, hnin⟩ := ih ⟨q.jobIds ++ [jobIdOf cfg.key rel]⟩ (i + 1)
      simp only [addJobIds_append, addJobIds, List.nil_append,
        List.cons_append]
      constructor
      · refine List.nodup_cons.mpr ⟨?_, hnd⟩
        intro hmem
        exact hnin _ hmem
          (List.mem_append_right q.jobIds (List.mem_cons_self _ []))
      · intro j hj
        rcases List.mem_cons.mp hj with h | h
        · rw [h]; exact hjq
        · intro hjQ
          exact hnin j h (List.mem_append_left _ hjQ)

/-! ## C10: at most one job per (packageName, version) -/

/-- C10: within one scheduling run the enqueued job ids are pairwise
distinct, and the job id is a deterministic function of the release's
package name and version; hence at most one job is created per
`(packageName, version)` pair even when the release list repeats a
version, the queue lookup finding the job added earlier in the run. -/
theorem addReleaseJobs_unique_per_version (retryable : Option String → Bool)
    (cfg : JobConfig) (now : Nat) (rels : List Release) (q : Queue) :
    (addJobIds (addReleaseJobs retryable cfg now rels q).2).Nodup ∧
    ∀ r1 r2 : Release, r1.packageName = r2.packageName →
      r1.version = r2.version →
      jobIdOf cfg.key r1 = jobIdOf cfg.key r2 := by
  refine ⟨(addReleaseJobsLoop_ids retryable cfg now rels q 0).1, ?_⟩
  intro r1 r2 h1 h2
  simp [jobIdOf, h1, h2]

/-! ## Helper lemmas about reconciliation -/

/-- The eviction test of the source, read propositionally. -/
theorem evictCond_iff (validTags : List RemoteTag) (rel : Release) :
    (rel.state == ReleaseState.Failed &&
      !(validTags.any (fun x => x.tag == rel.tag && x.commit == rel.commit)))
      = true ↔
    (rel.state = ReleaseState.Failed ∧
      ∀ t ∈ validTags, ¬(t.tag = rel.tag ∧ t.commit = rel.commit)) := by
  simp only [Bool.and_eq_true, beq_iff_eq, Bool.not_eq_true',
    List.any_eq_false, Bool.and_eq_false_iff, beq_eq_false_iff_ne, ne_eq]

/-- Every stale Failed release produces its removal effect. -/
theorem staleEvictLoop_complete (packageName : String)
    (validTags : List RemoteTag) (rels : List Release) (s : Store) :
    ∀ rel ∈ rels, rel.state = ReleaseState.Failed →
      (∀ t ∈ validTags, ¬(t.tag = rel.tag ∧ t.commit = rel.commit)) →
      Effect.removeRelease packageName rel.version ∈
        (staleEvictLoop packageName validTags rels s).2 := by
  induction rels generalizing s with
  | nil => simp
  | cons a rest ih =>
    intro rel hrel hfailed hnomatch
    by_cases hcond : (a.state == ReleaseState.Failed &&
        !(validTags.any (fun x => x.tag == a.tag && x.commit == a.commit)))
        = true
    · simp only [staleEvictLoop, hcond, if_true]
      rcases List.mem_cons.mp hrel with h | h
      · rw [h]
        exact List.mem_cons_self _ _
      · exact List.mem_cons_of_mem _
          (ih (removeReleaseModel packageName a.version s) rel h hfailed
            hnomatch)
    · simp only [staleEvictLoop, hcond, Bool.false_eq_true, if_false]
      rcases List.mem_cons.mp hrel with h | h
      · exact absurd ((evictCond_iff validTags a).mpr
          (h ▸ ⟨hfailed, hnomatch⟩)) hcond
      · exact ih s rel h hfailed hnomatch

/-- Every effect of the eviction pass is the removal of some fetched
release that is Failed and matches no current valid tag. -/
theorem staleEvictLoop_sound (packageName : String)
    (validTags : List RemoteTag) (rels : List Release) (s : Store) :
    ∀ e ∈ (staleEvictLoop packageName validTags rels s).2,
      ∃ rel ∈ rels, e = Effect.removeRelease packageName rel.version ∧
        rel.state = ReleaseState.Failed ∧
        ∀ t ∈ validTags, ¬(t.tag = rel.tag ∧ t.commit = rel.commit) := by
  induction rels generalizing s with
  | nil => simp [staleEvictLoop]
  | cons a rest ih =>
    intro e he
    by_cases hcond : (a.state == ReleaseState.Failed &&
        !(validTags.any (fun x => x.tag == a.tag && x.commit == a.commit)))
        = true
    · simp only [staleEvictLoop, hcond, if_true] at he
      rcases List.mem_cons.mp he with h | h
      · obtain ⟨h1, h2⟩ := (evictCond_iff validTags a).mp hcond
        exact ⟨a, List.mem_cons_self a rest, h, h1, h2⟩
      · obtain ⟨rel, hm, he', hp⟩ :=
          ih (removeReleaseModel packageName a.version s) e h
        exact ⟨rel, List.mem_cons_of_mem a hm, he', hp⟩
    · simp only [staleEvictLoop, hcond, Bool.false_eq_true, if_false] at he
      obtain ⟨rel, hm, he', hp⟩ := ih s e he
      exact ⟨rel, List.mem_cons_of_mem a hm, he', hp⟩

/-- Every effect of the materialization pass is a release lookup or a
release save. -/
theorem materializeLoop_effects_shape (parse : String → Option String)
    (packageName : String) (tags : List RemoteTag) (s : Store) :
    ∀ e ∈ (materializeLoop parse packageName tags s).2.1,
      (∃ pn v, e = Effect.fetchOneRelease pn v) ∨
        ∃ rec, e = Effect.saveRelease rec := by
  induction tags generalizing s with
  | nil => simp [materializeLoop]
  | cons t rest ih =>
    intro e he
    rcases hf : fetchOne s packageName (parse t.tag) with _ | release
    · simp only [materializeLoop, hf] at he
      rcases List.mem_cons.mp he with h | h
      · exact Or.inl ⟨_, _, h⟩
      · rcases List.mem_cons.mp h with h' | h'
        · exact Or.inr ⟨_, h'⟩
        · exact ih _ e h'
    · simp only [materializeLoop, hf] at he
      rcases List.mem_cons.mp he with h | h
      · exact Or.inl ⟨_, _, h⟩
      · exact ih s e h

/-! ## C3: stale-failure eviction before materialization -/

/-- C3: during reconciliation each persisted Failed release of the package
whose `(tag, commit)` matches no valid tag gets the external removal
routine invoked with `(packageName, version)`; every removal invocation
arises from such a release (other states, and Failed releases with a
matching pair, are never removed); and the whole trace orders every
removal before every lookup/save of the materialization step. -/
theorem updateReleaseRecords_stale_eviction (parse : String → Option String)
    (packageName : String) (validTags : List RemoteTag) (s : Store) :
    (∀ rel ∈ fetchAll s packageName, rel.state = ReleaseState.Failed →
      (∀ t ∈ validTags, ¬(t.tag = rel.tag ∧ t.commit = rel.commit)) →
      Effect.removeRelease packageName rel.version ∈
        (updateReleaseRecords parse packageName validTags s).2.1) ∧
    (∀ e ∈ (updateReleaseRecords parse packageName validTags s).2.1,
      (∃ pn v, e = Effect.removeRelease pn v) →
      ∃ rel ∈ fetchAll s packageName,
        e = Effect.removeRelease packageName rel.version ∧
        rel.state = ReleaseState.Failed ∧
        ∀ t ∈ validTags, ¬(t.tag = rel.tag ∧ t.commit = rel.commit)) ∧
    (∃ es1 es2,
      (updateReleaseRecords parse packageName validTags s).2.1 =
        Effect.fetchAllReleases packageName :: es1 ++ es2 ∧
      (∀ e ∈ es1, ∃ pn v, e = Effect.removeRelease pn v) ∧
      (∀ e ∈ es2, (∃ pn v, e = Effect.fetchOneRelease pn v) ∨
        ∃ rec, e = Effect.saveRelease rec)) := by
  refine ⟨?_, ?_, ?_⟩
  · intro rel hrel hfailed hnomatch
    have h := staleEvictLoop_complete packageName validTags
      (fetchAll s packageName) s rel hrel hfailed hnomatch
    simp only [updateReleaseRecords]
    exact List.mem_cons_of_mem _ (List.mem_append_left _ h)
  · intro e he hshape
    simp only [updateReleaseRecords] at he
    rcases List.mem_cons.mp he with h | h
    · obtain ⟨pn, v, hev⟩ := hshape
      rw [hev] at h
      exact absurd h (by simp)
    · rcases List.mem_append.mp h with h' | h'
      · exact staleEvictLoop_sound packageName validTags
          (fetchAll s packageName) s e h'
      · obtain ⟨pn, v, hev⟩ := hshape
        rcases materializeLoop_effects_shape parse packageName validTags
          (staleEvictLoop packageName validTags (fetchAll s packageName) s).1
          e h' with ⟨pn', v', h2⟩ | ⟨rec, h2⟩
        · rw [hev] at h2
          exact absurd h2 (by simp)
        · rw [hev] at h2
          exact absurd h2 (by simp)
  · refine ⟨(staleEvictLoop packageName validTags (fetchAll s packageName)
      s).2,
      (materializeLoop parse packageName validTags
        (staleEvictLoop packageName validTags (fetchAll s packageName)
          s).1).2.1, rfl, ?_, ?_⟩
    · intro e he
      obtain ⟨rel, _, he', _⟩ := staleEvictLoop_sound packageName validTags
        (fetchAll s packageName) s e he
      exact ⟨packageName, rel.version, he'⟩
    · exact materializeLoop_effects_shape parse packageName validTags _

/-- A successful lookup is preserved when a record is appended to the
store. -/
theorem fetchOne_saveRelease_some (s : Store) (rec : Release)
    (packageName : String) (v : Option String) (r0 : Release)
    (h : fetchOne s packageName v = some r0) :
    fetchOne (saveRelease rec s) packageName v = some r0 := by
  simp only [fetchOne, saveRelease, List.filter_append] at h ⊢
  cases hf : List.filter
      (fun r => r.packageName == packageName && r.version == v)
      s.releases with
  | nil => rw [hf] at h; simp at h
  | cons x xs =>
    rw [hf] at h
    simp only [List.head?_cons, Option.some.injEq] at h
    simp [h]

/-- A failed lookup against a store with an appended record was a failed
lookup against the original store. -/
theorem fetchOne_saveRelease_none (s : Store) (rec : Release)
    (packageName : String) (v : Option String)
    (h : fetchOne (saveRelease rec s) packageName v = none) :
    fetchOne s packageName v = none := by
  simp only [fetchOne, saveRelease, List.filter_append,
    List.head?_eq_none_iff, List.append_eq_nil] at h
  simp [fetchOne, List.head?_eq_none_iff, h.1]

/-! ## C8: materialization reuses existing releases as-is -/

/-- C8: materialization only appends to the store, so every pre-existing
release record — commit, tag and all other fields — is left unchanged;
a record is saved only for a version with no existing release, with
exactly `{packageName, version, commit, tag}` from its remote tag and the
default Pending state and unset reason; and for every tag whose parsed
version already had a persisted release, that stored record itself is
returned. -/
theorem materializeLoop_reuse_existing (parse : String → Option String)
    (packageName : String) (tags : List RemoteTag) (s : Store) :
    (∃ news, (materializeLoop parse packageName tags s).1.releases =
      s.releases ++ news) ∧
    (∀ rec, Effect.saveRelease rec ∈
        (materializeLoop parse packageName tags s).2.1 →
      rec.state = ReleaseState.Pending ∧ rec.reason = none ∧
      rec.packageName = packageName ∧
      (∃ t ∈ tags, rec.version = parse t.tag ∧ rec.commit = t.commit ∧
        rec.tag = t.tag) ∧
      fetchOne s packageName rec.version = none) ∧
    (∀ t ∈ tags, ∀ r0, fetchOne s packageName (parse t.tag) = some r0 →
      r0 ∈ (materializeLoop parse packageName tags s).2.2) := by
  induction tags generalizing s with
  | nil =>
    exact ⟨⟨[], by simp [materializeLoop]⟩, by simp [materializeLoop],
      by simp⟩
  | cons t rest ih =>
    rcases hf : fetchOne s packageName (parse t.tag) with _ | release
    · obtain ⟨⟨news, hnews⟩, hsaves, hreturn⟩ :=
        ih (saveRelease
          { packageName := packageName, version := parse t.tag,
            commit := t.commit, tag := t.tag,
            state := ReleaseState.Pending, reason := none } s)
      refine ⟨⟨Release.mk packageName (parse t.tag) t.commit t.tag
          ReleaseState.Pending none :: news, ?_⟩, ?_, ?_⟩
      · simp only [materializeLoop, hf]
        rw [hnews]
        simp [saveRelease]
      · intro rec hrec
        simp only [materializeLoop, hf] at hrec
        rcases List.mem_cons.mp hrec with h | h
        · exact absurd h (by simp)
        · rcases List.mem_cons.mp h with h' | h'
          · have hrec' : rec =
                { packageName := packageName, version := parse t.tag,
                  commit := t.commit, tag := t.tag,
                  state := ReleaseState.Pending, reason := none } := by
              simpa using h'
            rw [hrec']
            exact ⟨rfl, rfl, rfl,
              ⟨t, List.mem_cons_self t rest, rfl, rfl, rfl⟩, hf⟩
          · obtain ⟨h1, h2, h3, ⟨u, hu, h4⟩, h5⟩ := hsaves rec h'
            exact ⟨h1, h2, h3, ⟨u, List.mem_cons_of_mem t hu, h4⟩,
              fetchOne_saveRelease_none _ _ _ _ h5⟩
      · intro u hu r0 hr0
        rcases List.mem_cons.mp hu with h | h
        · rw [h] at hr0
          rw [hf] at hr0
          exact absurd hr0 (by simp)
        · have := hreturn u h r0 (fetchOne_saveRelease_some _ _ _ _ _ hr0)
          simp only [materializeLoop, hf]
          exact List.mem_cons_of_mem _ this
    · obtain ⟨⟨news, hnews⟩, hsaves, hreturn⟩ := ih s
      refine ⟨⟨news, by simp only [materializeLoop, hf]; exact hnews⟩,
        ?_, ?_⟩
      · intro rec hrec
        simp only [materializeLoop, hf] at hrec
        rcases List.mem_cons.mp hrec with h | h
        · exact absurd h (by simp)
        · obtain ⟨h1, h2, h3, ⟨u, hu, h4⟩, h5⟩ := hsaves rec h
          exact ⟨h1, h2, h3, ⟨u, List.mem_cons_of_mem t hu, h4⟩, h5⟩
      · intro u hu r0 hr0
        simp only [materializeLoop, hf]
        rcases List.mem_cons.mp hu with h | h
        · rw [h] at hr0
          rw [hf] at hr0
          have : r0 = release := by
            have h' := hr0
            simp at h'
            exact h'.symm
          rw [this]
          exact List.mem_cons_self release _
        · exact List.mem_cons_of_mem _ (hreturn u h r0 hr0)

/-! ## C9: the empty-valid-tags run is a normal no-op -/

/-- C9: when filtering leaves no valid tags, the run completes normally,
overwriting the persisted invalid-tag list with all remote tags and
returning with the store and the queue untouched — no release record read
or written, no job looked up or enqueued. -/
theorem buildPackage_no_valid_tags (parse : String → Option String)
    (retryable : Option String → Bool) (cfg : JobConfig) (now : Nat)
    (name : String) (pkg : Package) (remoteTags : List RemoteTag)
    (s : Store) (q : Queue)
    (h : buildPackageValidTags parse pkg remoteTags = []) :
    buildPackage parse retryable cfg now name pkg remoteTags s q =
      (s, q, [Effect.setInvalidTags name remoteTags]) := by
  simp only [buildPackage, h]
  simp [difference]

/-- C9, witness: a package whose only remote tag is the non-semver `patch`
runs to the no-op outcome. -/
theorem buildPackage_no_valid_tags_witness :
    buildPackage mparse (fun _ => true) ⟨"buildRelease", 300⟩ 0 "pkg"
      ⟨"pkg", none, none⟩ [⟨"patch", "c9"⟩] ⟨[]⟩ ⟨[]⟩ =
      (⟨[]⟩, ⟨[]⟩, [Effect.setInvalidTags "pkg" [⟨"patch", "c9"⟩]]) :=
  buildPackage_no_valid_tags mparse (fun _ => true) ⟨"buildRelease", 300⟩ 0
    "pkg" ⟨"pkg", none, none⟩ [⟨"patch", "c9"⟩] ⟨[]⟩ ⟨[]⟩ (by decide)
